import Mathlib

/-!
Verification of the jsclaw container orchestrator core against its
natural-language specification.

The JavaScript sources are shallowly embedded: JS strings become `List Char`,
dynamic JSON values become the inductive `JsVal`, filesystem and JSON-parsing
effects become explicit function parameters (`realpath`, `readParse`, ...),
and the asynchronous queue / runner loops become explicit event-step machines.
Every definition is translated from the corresponding source function.
-/

namespace Jsclaw

/-- Characters of a literal, used to model JavaScript strings as `List Char`. -/
def S (s : String) : List Char := s.data

/-- Leftmost index at which `pat` occurs as a contiguous block in `l`;
models JavaScript `String.indexOf` (`none` models the result `-1`). -/
def findSub (pat : List Char) : List Char → Option Nat
  | [] => if pat.isEmpty then some 0 else none
  | c :: rest =>
    if pat.isPrefixOf (c :: rest) then some 0
    else (findSub pat rest).map (· + 1)

/-- Models JavaScript `String.includes`. -/
def includesSub (pat l : List Char) : Bool := (findSub pat l).isSome

/-- Models JavaScript `String.toLowerCase` (ASCII-faithful). -/
def toLowerJs (l : List Char) : List Char := l.map Char.toLower

/-- Dynamic JavaScript/JSON values, including JS `undefined`. -/
inductive JsVal where
  | null
  | undefined
  | bool (b : Bool)
  | num (n : Int)
  | str (s : List Char)
  | arr (xs : List JsVal)
  | obj (fields : List (List Char × JsVal))

/-- JavaScript truthiness of a value. -/
def JsVal.truthy : JsVal → Bool
  | .null => false
  | .undefined => false
  | .bool b => b
  | .num n => n != 0
  | .str s => !s.isEmpty
  | .arr _ => true
  | .obj _ => true

/-- Property access `v.k`. Missing properties and non-object receivers give
`undefined`; access on `null` (which would throw in JS) also gives
`undefined` here — every such access in the embedded sources sits inside a
`try` whose `catch` produces the same outcome as this path. -/
def JsVal.getField : JsVal → List Char → JsVal
  | .obj fields, k => match fields.lookup k with
    | some v => v
    | none => .undefined
  | _, _ => .undefined

/-- JavaScript `a || b` on dynamic values. -/
def jsOr (a b : JsVal) : JsVal := if a.truthy then a else b

/-- The string payload of a value, when it is a string. -/
def JsVal.asStr? : JsVal → Option (List Char)
  | .str s => some s
  | _ => none

/- ===================== Mount security (src/mount-security.js) ============ -/

/-- `DEFAULT_BLOCKED_PATTERNS` from src/mount-security.js. -/
def DEFAULT_BLOCKED_PATTERNS : List (List Char) :=
  [ S ".ssh", S ".gnupg", S ".gpg", S ".aws", S ".azure", S ".gcloud",
    S ".config/gcloud", S ".kube", S ".docker", S ".env", S "private_key",
    S "id_rsa", S "id_ed25519", S "credentials", S "secrets",
    S ".npmrc", S ".pypirc" ]

/-- Split a character list on a separator character. -/
def splitOnChar (sep : Char) : List Char → List (List Char)
  | [] => [[]]
  | c :: rest =>
    let r := splitOnChar sep rest
    if c = sep then [] :: r
    else match r with
      | h :: t => (c :: h) :: t
      | [] => [[c]]

/-- Segment resolution for `path.normalize`: drops empty and `.` segments and
resolves `..` (at the root of an absolute path a leading `..` vanishes; in a
relative path it is retained). -/
def normSegs (isAbs : Bool) : List (List Char) → List (List Char) → List (List Char)
  | stack, [] => stack.reverse
  | stack, seg :: rest =>
    if seg.isEmpty || seg = ['.'] then normSegs isAbs stack rest
    else if seg = ['.', '.'] then
      match stack with
      | top :: t =>
        if top = ['.', '.'] then normSegs isAbs (seg :: stack) rest
        else normSegs isAbs t rest
      | [] => if isAbs then normSegs isAbs [] rest else normSegs isAbs [seg] rest
    else normSegs isAbs (seg :: stack) rest

/-- Models Node `path.normalize` for POSIX paths: collapses repeated
separators and resolves `.` and `..` segments. (Trailing-separator
preservation is omitted; the source only applies `normalize` to
`realpathSync` outputs, which never carry one.) -/
def normalizePath (p : List Char) : List Char :=
  if p.isEmpty then ['.']
  else
    let isAbs := p.headI = '/'
    let segs := normSegs isAbs [] (splitOnChar '/' p)
    let joined := (segs.intersperse (S "/")).flatten
    if isAbs then
      '/' :: joined
    else if joined.isEmpty then ['.'] else joined

/-- A single additional bind mount (the fields `validateMount` reads). -/
structure AdditionalMount where
  host_path : List Char
  container_path : List Char
deriving DecidableEq, Repr

/-- The allowlist record produced by `loadMountAllowlist`. -/
structure MountAllowlist where
  allowed_roots : List (List Char)
  blocked_patterns : List (List Char)
deriving DecidableEq, Repr

/-- `loadMountAllowlist` from src/mount-security.js. The file read plus
`JSON.parse` is modelled by the already-parsed `content` (`none` models a
read/parse throw). `resolvePath` models Node `path.resolve`. A non-string
entry in `allowed_roots` makes `resolve` throw, landing in the `catch`;
non-string `blocked_patterns` entries (which the claims never exercise) are
dropped. -/
def loadMountAllowlist (resolvePath : List Char → List Char)
    (content : Option JsVal) : Option MountAllowlist :=
  match content with
  | none => none
  | some parsed =>
    let roots := parsed.getField (S "allowed_roots")
    if !roots.truthy then none
    else match roots with
      | .arr xs =>
        if xs.all (fun x => x.asStr?.isSome) then
          some { allowed_roots := (xs.filterMap JsVal.asStr?).map resolvePath,
                 blocked_patterns :=
                   match jsOr (parsed.getField (S "blocked_patterns")) (.arr []) with
                   | .arr ys => ys.filterMap JsVal.asStr?
                   | _ => [] }
        else none
      | _ => none

/-- `matchesBlocked` from src/mount-security.js: the first blocked pattern
that occurs (case-insensitively) in the normalized path, if any. -/
def matchesBlocked (hostPath : List Char) (extraBlocked : List (List Char)) :
    Option (List Char) :=
  let allBlocked := DEFAULT_BLOCKED_PATTERNS ++ extraBlocked
  let normalized := toLowerJs (normalizePath hostPath)
  allBlocked.find? (fun pattern => includesSub (toLowerJs pattern) normalized)

/-- Result of `validateMount`. -/
structure MountCheck where
  valid : Bool
  reason : Option (List Char)
deriving DecidableEq, Repr

/-- `validateMount` from src/mount-security.js. `realpath` models
`fs.realpathSync` (`none` models a throw for a missing path). The quotes that
the source places around the pattern in the reason message are elided. -/
def validateMount (realpath : List Char → Option (List Char))
    (mount : AdditionalMount) (_isMain : Bool) (allowlist : MountAllowlist) :
    MountCheck :=
  if includesSub (S "..") mount.container_path
      || !((S "/").isPrefixOf mount.container_path) then
    { valid := false, reason := some (S "Invalid container path: " ++ mount.container_path) }
  else
    match realpath mount.host_path with
    | none =>
      { valid := false, reason := some (S "Host path does not exist: " ++ mount.host_path) }
    | some realHostPath =>
      match matchesBlocked realHostPath allowlist.blocked_patterns with
      | some blocked =>
        { valid := false,
          reason := some (S "Path matches blocked pattern " ++ blocked
                          ++ S ": " ++ realHostPath) }
      | none =>
        if allowlist.allowed_roots.any
            (fun root => realHostPath = root
                         || (root ++ S "/").isPrefixOf realHostPath) then
          { valid := true, reason := none }
        else
          { valid := false,
            reason := some (S "Path not under any allowed root: " ++ realHostPath) }

/-- Result of `validateAdditionalMounts`. -/
structure MountsCheck where
  valid : Bool
  errors : List (List Char)
deriving DecidableEq, Repr

/-- JS truthiness of an optional string (`none` models `undefined`). -/
def optStrTruthy : Option (List Char) → Bool
  | none => false
  | some s => !s.isEmpty

/-- `validateAdditionalMounts` from src/mount-security.js. `readParse` models
reading and JSON-parsing the allowlist file at a path. -/
def validateAdditionalMounts (realpath : List Char → Option (List Char))
    (resolvePath : List Char → List Char)
    (readParse : List Char → Option JsVal)
    (mounts : List AdditionalMount) (_groupName : List Char) (isMain : Bool)
    (allowlistPath : Option (List Char)) : MountsCheck :=
  if mounts.isEmpty then { valid := true, errors := [] }
  else if !optStrTruthy allowlistPath then
    { valid := false,
      errors := [S "No mount allowlist configured. All additional mounts are blocked."] }
  else
    let path := allowlistPath.getD []
    match loadMountAllowlist resolvePath (readParse path) with
    | none =>
      { valid := false,
        errors := [S "Failed to load mount allowlist from: " ++ path] }
    | some allowlist =>
      let errors := mounts.foldl
        (fun errs mount =>
          let result := validateMount realpath mount isMain allowlist
          if !result.valid then errs ++ [result.reason.getD []] else errs) []
      { valid := errors.isEmpty, errors := errors }

/- ===================== Theorems: mount security ========================= -/

/-- C4 counterexample: `validateAdditionalMounts` with an empty mounts list
and no allowlist path returns `valid := true`, refuting the claim that such a
call never returns `valid:true` "for every mounts argument (including the
empty list)". -/
theorem validateAdditionalMounts_empty_ok_without_allowlist :
    (validateAdditionalMounts (fun _ => none) (fun p => p) (fun _ => none)
      [] (S "g") false none).valid = true := rfl

/-- C4 (amended): for every NON-empty mounts list, a call with no allowlist
path configured (or whose allowlist file fails to load as JSON with an
`allowed_roots` array) returns `valid := false`. -/
theorem validateAdditionalMounts_missing_allowlist_rejects
    (realpath : List Char → Option (List Char))
    (resolvePath : List Char → List Char)
    (readParse : List Char → Option JsVal)
    (mounts : List AdditionalMount) (groupName : List Char) (isMain : Bool)
    (allowlistPath : Option (List Char))
    (hne : mounts ≠ [])
    (hload : ∀ p, allowlistPath = some p →
      optStrTruthy allowlistPath = false ∨
      loadMountAllowlist resolvePath (readParse p) = none) :
    (validateAdditionalMounts realpath resolvePath readParse mounts groupName
      isMain allowlistPath).valid = false := by
  obtain ⟨m, ms, rfl⟩ : ∃ m ms, mounts = m :: ms := by
    cases mounts with
    | nil => exact absurd rfl hne
    | cons m ms => exact ⟨m, ms, rfl⟩
  cases hap : allowlistPath with
  | none => simp [validateAdditionalMounts, optStrTruthy]
  | some p =>
    by_cases htr : optStrTruthy (some p) = true
    · rcases hload p hap with h | h
      · rw [hap] at h; rw [h] at htr; cases htr
      · simp [validateAdditionalMounts, htr, h]
    · simp [validateAdditionalMounts, Bool.not_eq_true] at htr
      simp [validateAdditionalMounts, htr]

/-- C4 witness: a concrete non-empty mounts list with no allowlist path is
rejected. -/
theorem validateAdditionalMounts_missing_allowlist_rejects_witness :
    (validateAdditionalMounts (fun _ => none) (fun p => p) (fun _ => none)
      [⟨S "/data", S "/mnt/k"⟩] (S "g") false none).valid = false :=
  validateAdditionalMounts_missing_allowlist_rejects _ _ _ _ _ _ _
    (by simp) (fun p h => by cases h)

/-- C5: if the symlink-resolved host path `p` (already in normal form, as
`realpathSync` outputs are), lower-cased, contains some blocked pattern
(built-in or user-supplied), and the container path passes its own check,
then `validateMount` rejects the mount and its reason embeds the pattern
that matched. -/
theorem validateMount_blocked_pattern_rejects
    (realpath : List Char → Option (List Char)) (mount : AdditionalMount)
    (isMain : Bool) (allowlist : MountAllowlist) (p pat : List Char)
    (hdots : includesSub (S "..") mount.container_path = false)
    (hslash : (S "/").isPrefixOf mount.container_path = true)
    (hreal : realpath mount.host_path = some p)
    (hnorm : normalizePath p = p)
    (hpat : pat ∈ DEFAULT_BLOCKED_PATTERNS ++ allowlist.blocked_patterns)
    (hinc : includesSub (toLowerJs pat) (toLowerJs p) = true) :
    (validateMount realpath mount isMain allowlist).valid = false ∧
    ∃ q, q ∈ DEFAULT_BLOCKED_PATTERNS ++ allowlist.blocked_patterns ∧
      includesSub (toLowerJs q) (toLowerJs p) = true ∧
      (validateMount realpath mount isMain allowlist).reason
        = some (S "Path matches blocked pattern " ++ q ++ S ": " ++ p) := by
  have hsome : ((DEFAULT_BLOCKED_PATTERNS ++ allowlist.blocked_patterns).find?
      (fun pattern => includesSub (toLowerJs pattern)
        (toLowerJs (normalizePath p)))).isSome = true := by
    rw [List.find?_isSome]
    exact ⟨pat, hpat, by rw [hnorm]; exact hinc⟩
  obtain ⟨q, hq⟩ := Option.isSome_iff_exists.mp hsome
  have hqpred := List.find?_some hq
  have hqmem := List.mem_of_find?_eq_some hq
  rw [hnorm] at hqpred
  have hmb : matchesBlocked p allowlist.blocked_patterns = some q := by
    unfold matchesBlocked
    exact hq
  simp only [validateMount, hdots, hslash, hreal, hmb, Bool.not_true,
    Bool.or_false, Bool.false_eq_true, if_false]
  exact ⟨trivial, q, hqmem, hqpred, rfl⟩

/-- C5 witness (the spec scenario S7): the mount of `/home/u/.ssh` is
rejected, its reason embedding `.ssh`. -/
theorem validateMount_blocked_pattern_rejects_witness :
    (validateMount some ⟨S "/home/u/.ssh", S "/mnt/k"⟩ false
      ⟨[S "/home/u"], []⟩).valid = false ∧
    ∃ q, q ∈ DEFAULT_BLOCKED_PATTERNS ++ ([] : List (List Char)) ∧
      includesSub (toLowerJs q) (toLowerJs (S "/home/u/.ssh")) = true ∧
      (validateMount some ⟨S "/home/u/.ssh", S "/mnt/k"⟩ false
        ⟨[S "/home/u"], []⟩).reason
        = some (S "Path matches blocked pattern " ++ q ++ S ": "
                ++ S "/home/u/.ssh") :=
  validateMount_blocked_pattern_rejects some ⟨S "/home/u/.ssh", S "/mnt/k"⟩
    false ⟨[S "/home/u"], []⟩ (S "/home/u/.ssh") (S ".ssh")
    (by decide) (by decide) rfl (by decide) (by decide) (by decide)

/-- C5 counterexample: a mount whose resolved host path contains `.ssh` but
whose container path is invalid is rejected with the container-path reason,
which does not name the matched pattern — so the claim's universally stated
"reason naming the matched pattern" fails without a container-path proviso. -/
theorem validateMount_blocked_pattern_reason_counterexample :
    (validateMount some ⟨S "/home/u/.ssh", S "relative"⟩ false
      ⟨[S "/home/u"], []⟩).valid = false ∧
    (validateMount some ⟨S "/home/u/.ssh", S "relative"⟩ false
      ⟨[S "/home/u"], []⟩).reason = some (S "Invalid container path: relative") ∧
    includesSub (S ".ssh") (S "Invalid container path: relative") = false := by
  refine ⟨rfl, rfl, by decide⟩

/-- C10: when the container path passes its check, the host path resolves to
`p` and no blocked pattern matches, `validateMount` accepts exactly when `p`
equals an allowed root or extends one followed by a path separator. -/
theorem validateMount_allowed_root_iff
    (realpath : List Char → Option (List Char)) (mount : AdditionalMount)
    (isMain : Bool) (allowlist : MountAllowlist) (p : List Char)
    (hdots : includesSub (S "..") mount.container_path = false)
    (hslash : (S "/").isPrefixOf mount.container_path = true)
    (hreal : realpath mount.host_path = some p)
    (hblocked : matchesBlocked p allowlist.blocked_patterns = none) :
    ((validateMount realpath mount isMain allowlist).valid = true ↔
      ∃ r ∈ allowlist.allowed_roots,
        p = r ∨ (r ++ S "/").isPrefixOf p = true) := by
  simp only [validateMount, hdots, hslash, hreal, hblocked, Bool.not_true,
    Bool.or_false, Bool.false_eq_true, if_false]
  by_cases h : allowlist.allowed_roots.any
      (fun root => p = root || (root ++ S "/").isPrefixOf p) = true
  · rw [if_pos h]
    simp only [List.any_eq_true, Bool.or_eq_true, decide_eq_true_eq] at h
    simpa using h
  · rw [if_neg h]
    simp only [List.any_eq_true, Bool.or_eq_true, decide_eq_true_eq] at h
    simpa using h

/-- C10 witness: `/home/user2` merely shares a string prefix with the allowed
root `/home/user` and is rejected as not under any allowed root. -/
theorem validateMount_allowed_root_iff_witness :
    (validateMount some ⟨S "/home/user2", S "/mnt/x"⟩ false
      ⟨[S "/home/user"], []⟩).valid = false := by
  have h := validateMount_allowed_root_iff some ⟨S "/home/user2", S "/mnt/x"⟩
    false ⟨[S "/home/user"], []⟩ (S "/home/user2")
    (by decide) (by decide) rfl (by decide)
  cases hv : (validateMount some ⟨S "/home/user2", S "/mnt/x"⟩ false
      ⟨[S "/home/user"], []⟩).valid with
  | false => rfl
  | true => exact absurd (h.mp hv) (by decide)

/- ===================== IPC utilities (src/ipc-utils.js) ================= -/

/-- JavaScript default `Array.sort` comparison on strings: lexicographic by
code unit. -/
def strLe : List Char → List Char → Bool
  | [], _ => true
  | _ :: _, [] => false
  | a :: as, b :: bs => if a = b then strLe as bs else decide (a < b)

/-- One directory entry as `drainIpcDir` observes it: the filename, the
parsed content `readIpcFile` would yield for it (`none` models a read or
JSON-parse failure), and whether `unlinkSync` on it would succeed. -/
structure FsEntry where
  name : List Char
  content : Option JsVal
  unlinkOk : Bool

/-- What `drainIpcDir` returns plus which files it removed. -/
structure DrainOutcome where
  results : List (JsVal × List Char)
  deleted : List (List Char)

/-- Loop body of `drainIpcDir`: the three `continue` guards, the read, the
push and the best-effort delete for one listed name. -/
def drainStep (filter : Option (List Char → Bool)) (acc : DrainOutcome)
    (e : FsEntry) : DrainOutcome :=
  if !((S ".json").isSuffixOf e.name) then acc
  else if (S ".").isPrefixOf e.name then acc
  else if (match filter with | some f => !f e.name | none => false) then acc
  else match e.content with
    | some data =>
      { results := acc.results ++ [(data, e.name)],
        deleted := if e.unlinkOk then acc.deleted ++ [e.name]
                   else acc.deleted }
    | none => acc

/-- `drainIpcDir` from src/ipc-utils.js. The directory is `none` when
`readdirSync` throws (missing dir). Skips non-`.json` names, dot-prefixed
names and names rejected by the filter; reads the rest in sorted order,
returning entries that parse and deleting them best-effort. -/
def drainIpcDir (dir : Option (List FsEntry))
    (filter : Option (List Char → Bool)) : DrainOutcome :=
  match dir with
  | none => ⟨[], []⟩
  | some entries =>
    (entries.mergeSort (fun a b => strLe a.name b.name)).foldl
      (drainStep filter) ⟨[], []⟩

/-- The filename admission test of `drainIpcDir`, as one predicate. -/
def drainKeepName (filter : Option (List Char → Bool)) (n : List Char) : Bool :=
  (S ".json").isSuffixOf n && !((S ".").isPrefixOf n) &&
    (match filter with | some f => f n | none => true)

/- ===================== Theorems: directory drain ======================== -/

theorem strLe_trans (a b c : List Char) (hab : strLe a b = true)
    (hbc : strLe b c = true) : strLe a c = true := by
  induction a generalizing b c with
  | nil => rfl
  | cons x xs ih =>
    cases b with
    | nil => cases hab
    | cons y ys =>
      cases c with
      | nil => cases hbc
      | cons z zs =>
        by_cases hxy : x = y
        · subst hxy
          rw [strLe, if_pos rfl] at hab
          by_cases hyz : x = z
          · subst hyz
            rw [strLe, if_pos rfl] at hbc ⊢
            exact ih ys zs hab hbc
          · rw [strLe, if_neg hyz] at hbc ⊢
            exact hbc
        · rw [strLe, if_neg hxy] at hab
          by_cases hyz : y = z
          · subst hyz
            rw [strLe, if_neg hxy]
            exact hab
          · rw [strLe, if_neg hyz] at hbc
            have hxz : x < z := lt_trans (of_decide_eq_true hab) (of_decide_eq_true hbc)
            rw [strLe, if_neg (ne_of_lt hxz)]
            exact decide_eq_true hxz

theorem strLe_total (a b : List Char) : (strLe a b || strLe b a) = true := by
  induction a generalizing b with
  | nil => rfl
  | cons x xs ih =>
    cases b with
    | nil => rfl
    | cons y ys =>
      by_cases hxy : x = y
      · subst hxy
        rw [strLe, strLe, if_pos rfl, if_pos rfl]
        exact ih ys
      · rw [strLe, strLe, if_neg hxy, if_neg (Ne.symm hxy)]
        rcases lt_or_gt_of_ne (show (x : Char) ≠ y from hxy) with h | h
        · rw [decide_eq_true h, Bool.true_or]
        · rw [decide_eq_true h, Bool.or_true]

/-- One `drainIpcDir` loop step, restated through the admission predicate. -/
theorem drainStep_eq (filter : Option (List Char → Bool)) (acc : DrainOutcome)
    (e : FsEntry) :
    drainStep filter acc e =
      if drainKeepName filter e.name && e.content.isSome then
        ⟨acc.results ++ [(e.content.getD JsVal.null, e.name)],
         acc.deleted ++ (if e.unlinkOk then [e.name] else [])⟩
      else acc := by
  obtain ⟨n, c, u⟩ := e
  cases filter with
  | none =>
    by_cases h1 : (S ".json").isSuffixOf n = true <;>
      by_cases h2 : (S ".").isPrefixOf n = true <;>
        cases c <;> simp [drainStep, drainKeepName, h1, h2] <;>
          cases u <;> simp
  | some f =>
    by_cases h1 : (S ".json").isSuffixOf n = true <;>
      by_cases h2 : (S ".").isPrefixOf n = true <;>
        by_cases hf : f n = true <;>
          cases c <;> simp [drainStep, drainKeepName, h1, h2, hf] <;>
            cases u <;> simp

/-- Closed form of the `drainIpcDir` fold, for any starting accumulator. -/
theorem drainIpcDir_foldl_spec (filter : Option (List Char → Bool))
    (l : List FsEntry) (acc : DrainOutcome) :
    l.foldl (drainStep filter) acc =
    ⟨acc.results ++
      (l.filter (fun e => drainKeepName filter e.name && e.content.isSome)).map
        (fun e => (e.content.getD JsVal.null, e.name)),
     acc.deleted ++
      ((l.filter (fun e =>
          drainKeepName filter e.name && e.content.isSome && e.unlinkOk)).map
        FsEntry.name)⟩ := by
  induction l generalizing acc with
  | nil => simp
  | cons e rest ih =>
    rw [List.foldl_cons, drainStep_eq]
    by_cases hke : (drainKeepName filter e.name && e.content.isSome) = true
    · rw [if_pos hke, ih]
      cases hu : e.unlinkOk with
      | true =>
        have hk2 : (drainKeepName filter e.name && e.content.isSome
            && e.unlinkOk) = true := by rw [hke, hu]; rfl
        simp [List.filter_cons, hke, hk2, hu]
      | false =>
        have hk2 : (drainKeepName filter e.name && e.content.isSome
            && e.unlinkOk) = false := by rw [hke, hu]; rfl
        simp [List.filter_cons, hke, hk2, hu]
    · rw [if_neg hke]
      rw [ih]
      have hke' : (drainKeepName filter e.name && e.content.isSome) = false :=
        Bool.not_eq_true _ ▸ (by simpa using hke)
      have hk2 : (drainKeepName filter e.name && e.content.isSome
          && e.unlinkOk) = false := by rw [hke']; rfl
      simp [List.filter_cons, hke', hk2]

/-- C9: `drainIpcDir` returns exactly the (sorted) admissible entries whose
read succeeds, in ascending lexicographic filename order; an entry whose read
fails is skipped and not deleted; an entry that reads is returned even when
its delete fails (deletions happen exactly for read-and-delete-ok entries);
and a missing directory yields the empty outcome. -/
theorem drainIpcDir_spec (entries : List FsEntry)
    (filter : Option (List Char → Bool)) :
    (drainIpcDir (some entries) filter =
      ⟨((entries.mergeSort (fun a b => strLe a.name b.name)).filter
          (fun e => drainKeepName filter e.name && e.content.isSome)).map
        (fun e => (e.content.getD JsVal.null, e.name)),
       ((entries.mergeSort (fun a b => strLe a.name b.name)).filter
          (fun e => drainKeepName filter e.name && e.content.isSome
                    && e.unlinkOk)).map FsEntry.name⟩) ∧
    ((drainIpcDir (some entries) filter).results.map Prod.snd).Pairwise
      (fun a b => strLe a b = true) ∧
    drainIpcDir none filter = ⟨[], []⟩ := by
  have hmain : drainIpcDir (some entries) filter = _ :=
    drainIpcDir_foldl_spec filter
      (entries.mergeSort (fun a b => strLe a.name b.name)) ⟨[], []⟩
  refine ⟨by simpa using hmain, ?_, rfl⟩
  have hsorted : ((entries.mergeSort (fun a b => strLe a.name b.name))).Pairwise
      (fun a b => strLe a.name b.name = true) :=
    List.sorted_mergeSort
      (fun a b c hab hbc => strLe_trans a.name b.name c.name hab hbc)
      (fun a b => strLe_total a.name b.name) entries
  have hfil : (((entries.mergeSort (fun a b => strLe a.name b.name))).filter
      (fun e => drainKeepName filter e.name && e.content.isSome)).Pairwise
      (fun a b => strLe a.name b.name = true) :=
    hsorted.sublist (List.filter_sublist _)
  rw [hmain]
  simp only [List.nil_append, List.map_map, List.pairwise_map, Function.comp]
  exact hfil

/- ============= Host-side IPC watcher (container-to-host messages) ======= -/

/-- A registered group as `getRegisteredGroups()` returns it (the fields
the watcher reads). -/
structure RegGroup where
  jid : List Char
  folder : List Char

/-- One drained messages-mailbox entry; each field is `none` when absent. -/
structure MsgEntry where
  targetJid : Option (List Char)
  target_jid : Option (List Char)
  text : Option (List Char)
  sender : Option (List Char)

/-- One invocation of the `sendMessage` collaborator. -/
structure SendCall where
  jid : List Char
  text : List Char
  sender : Option (List Char)

/-- JavaScript `a || b` on optional strings. -/
def jsOrStr (a b : Option (List Char)) : Option (List Char) :=
  if optStrTruthy a then a else b

/-- The watcher's per-folder main test: some registered group has this
folder and the folder is literally `main`. -/
def ipcIsMain (groups : List RegGroup) (groupFolder : List Char) : Bool :=
  groups.any (fun g => g.folder = groupFolder && g.folder = S "main")

/-- The body of the watcher's messages loop for one drained entry
(the poll function in the ipc module): `none` when the entry is skipped,
`some call` when `sendMessage` is invoked. -/
def dispatchMessage (groups : List RegGroup) (groupFolder : List Char)
    (entry : MsgEntry) : Option SendCall :=
  let targetJid := jsOrStr entry.targetJid entry.target_jid
  if !optStrTruthy entry.text then none
  else if (!ipcIsMain groups groupFolder && optStrTruthy targetJid) &&
      (match groups.find? (fun g => g.folder = groupFolder) with
       | some group => decide (targetJid ≠ some group.jid)
       | none => false) then none
  else
    let resolvedJid := jsOrStr targetJid
      ((groups.find? (fun g => g.folder = groupFolder)).map RegGroup.jid)
    if optStrTruthy resolvedJid then
      some ⟨resolvedJid.getD [], entry.text.getD [], entry.sender⟩
    else none

/-- The `sendMessage` invocations one poll tick makes for one group folder's
drained messages, in order. -/
def processMessagesMailbox (groups : List RegGroup) (groupFolder : List Char)
    (entries : List MsgEntry) : List SendCall :=
  entries.filterMap (dispatchMessage groups groupFolder)

/- ===================== Theorems: IPC watcher ============================ -/

/-- C1 counterexample: for a folder absent from `get_registered_groups()`
(and hence non-main), an entry carrying a foreign `targetJid` IS dispatched:
`sendMessage` is invoked with that jid, although no registered group with
this folder exists and the jid belongs to no such group. -/
theorem dispatchMessage_unregistered_counterexample :
    dispatchMessage [⟨S "j1", S "g1"⟩] (S "evil")
      ⟨some (S "j2"), none, some (S "x"), none⟩ =
      some ⟨S "j2", S "x", none⟩ ∧
    ipcIsMain [⟨S "j1", S "g1"⟩] (S "evil") = false ∧
    (∀ g ∈ [RegGroup.mk (S "j1") (S "g1")], g.folder ≠ S "evil") :=
  ⟨rfl, rfl, by decide⟩

/-- C1 (amended): provided the group folder IS registered (with first
registry match `g0`) and is not the main group, every `sendMessage`
invocation the drain produces carries that group's own jid — a foreign
`targetJid` is never dispatched. -/
theorem processMessagesMailbox_nonmain_own_jid_only
    (groups : List RegGroup) (groupFolder : List Char)
    (entries : List MsgEntry) (g0 : RegGroup)
    (hfind : groups.find? (fun g => g.folder = groupFolder) = some g0)
    (hmain : ipcIsMain groups groupFolder = false) :
    ∀ c ∈ processMessagesMailbox groups groupFolder entries,
      c.jid = g0.jid := by
  intro c hc
  obtain ⟨e, _he, hde⟩ := List.mem_filterMap.mp hc
  unfold dispatchMessage at hde
  rw [hfind, hmain] at hde
  simp only [Bool.not_false, Bool.true_and, Option.map_some'] at hde
  split at hde
  · exact absurd hde (by simp)
  · split at hde
    · exact absurd hde (by simp)
    · next h2 =>
      have hres : jsOrStr (jsOrStr e.targetJid e.target_jid) (some g0.jid)
          = some g0.jid := by
        cases htgt : optStrTruthy (jsOrStr e.targetJid e.target_jid) with
        | false => rw [jsOrStr, htgt]; rfl
        | true =>
          have hne : jsOrStr e.targetJid e.target_jid = some g0.jid := by
            by_contra hne
            exact h2 (by rw [htgt]; simp [hne])
          rw [jsOrStr, htgt]
          simpa using hne
      rw [hres] at hde
      split at hde
      · cases hde
        rfl
      · cases hde

/-- C1 witness: a registered non-main folder with one on-target entry and
one untargeted entry produces only sends to its own jid. -/
theorem processMessagesMailbox_nonmain_own_jid_only_witness :
    (processMessagesMailbox [⟨S "j1", S "g1"⟩] (S "g1")
      [⟨some (S "j1"), none, some (S "hello"), none⟩,
       ⟨none, none, some (S "hi"), none⟩]).all
      (fun c => decide (c.jid = S "j1")) = true := by
  have h := processMessagesMailbox_nonmain_own_jid_only
    [⟨S "j1", S "g1"⟩] (S "g1")
    [⟨some (S "j1"), none, some (S "hello"), none⟩,
     ⟨none, none, some (S "hi"), none⟩]
    ⟨S "j1", S "g1"⟩ rfl rfl
  exact List.all_eq_true.mpr (fun c hc => decide_eq_true (h c hc))

/- ===================== Group queue (src/group-queue.js) ================= -/

def MAX_RETRIES : Nat := 5

def BASE_RETRY_DELAY : Nat := 5000

/-- A queued work item: a message check (`hasFn = false`) or a task carrying
its own processing function (`hasFn = true`). `itemId` identifies the item's
completion promise. -/
structure QItem where
  itemId : Nat
  hasFn : Bool
  taskId : Option (List Char)
deriving DecidableEq, Repr

/-- Per-group state, as `_getGroup` creates it. -/
structure GroupState where
  jid : String
  hasProcess : Bool
  containerName : Option String
  groupFolder : Option String
  processing : Bool
  queue : List QItem
deriving DecidableEq, Repr

/-- An in-flight `_processItem` call, suspended at the `await` of its
processing function. -/
structure Flight where
  jid : String
  item : QItem
  attempt : Nat
deriving DecidableEq, Repr

/-- A retry scheduled with `setTimeout` during backoff. -/
structure RetryTimer where
  jid : String
  item : QItem
  attempt : Nat
  delay : Nat
deriving DecidableEq, Repr

/-- The queue machine state: the `GroupQueue` fields plus the suspended
computations and pending timers of the JavaScript event loop, plus logs of
settled item promises. `processMessagesFn` is assumed configured, so starting
an item always suspends at an `await`. -/
structure QueueState where
  groups : List GroupState
  activeCount : Int
  inflight : List Flight
  timers : List RetryTimer
  resolvedLog : List (Nat × Bool)
  rejectedLog : List Nat
  nextItemId : Nat
deriving DecidableEq, Repr

def initialQueueState : QueueState := ⟨[], 0, [], [], [], [], 0⟩

/-- `_getGroup`: create the group state on first touch (Map insertion order
is preserved by appending). -/
def ensureGroup (s : QueueState) (jid : String) : QueueState :=
  if s.groups.any (fun g => g.jid = jid) then s
  else { s with groups := s.groups ++ [⟨jid, false, none, none, false, []⟩] }

/-- Point update of one group's state. -/
def updateGroup (groups : List GroupState) (jid : String)
    (f : GroupState → GroupState) : List GroupState :=
  groups.map (fun g => if g.jid = jid then f g else g)

/-- `_drain`: under the global cap, start the first group that has queued
work and is not processing; mark it, bump the counter, pop its head item and
suspend the new `_processItem` call at attempt 0. (The source re-checks the
cap inside its loop, but the count cannot change mid-iteration.) -/
def drainQueue (maxConc : Nat) (s : QueueState) : QueueState :=
  if s.activeCount ≥ (maxConc : Int) then s
  else
    match s.groups.find? (fun g => !g.processing && !g.queue.isEmpty) with
    | none => s
    | some g =>
      match g.queue with
      | [] => s
      | item :: rest =>
        { s with
          groups := updateGroup s.groups g.jid
            (fun gr => { gr with processing := true, queue := rest }),
          activeCount := s.activeCount + 1,
          inflight := s.inflight ++ [⟨g.jid, item, 0⟩] }

/-- The slot-release block in `_processItem`'s `finally`, followed by the
re-drain. -/
def releaseSlot (maxConc : Nat) (s : QueueState) (jid : String) : QueueState :=
  drainQueue maxConc
    { s with
      groups := updateGroup s.groups jid
        (fun g => { g with processing := false, hasProcess := false,
                           containerName := none }),
      activeCount := s.activeCount - 1 }

/-- `_processItem`'s `finally` clause: in JavaScript it runs even after the
`return` in the `catch`, and releases when `attempt >= MAX_RETRIES` or the
item has no custom `fn`. -/
def processItemFinally (maxConc : Nat) (s : QueueState) (jid : String)
    (item : QItem) (attempt : Nat) : QueueState :=
  if attempt ≥ MAX_RETRIES || !item.hasFn then releaseSlot maxConc s jid else s

/-- Resumption of in-flight call `k` when its awaited processing function
settles: `some b` models a successful return of `b` (the `try` resolves the
item), `none` models a throw (the `catch` schedules a retry below
`MAX_RETRIES`, otherwise rejects). Either way the `finally` clause runs. -/
def completeFlight (maxConc : Nat) (s : QueueState) (k : Nat)
    (result : Option Bool) : QueueState :=
  match s.inflight[k]? with
  | none => s
  | some f =>
    let s1 := { s with inflight := s.inflight.eraseIdx k }
    match result with
    | some b =>
      processItemFinally maxConc
        { s1 with resolvedLog := s1.resolvedLog ++ [(f.item.itemId, b)] }
        f.jid f.item f.attempt
    | none =>
      let s2 :=
        if f.attempt < MAX_RETRIES then
          { s1 with timers := s1.timers ++
              [⟨f.jid, f.item, f.attempt + 1, BASE_RETRY_DELAY * 2 ^ f.attempt⟩] }
        else
          { s1 with rejectedLog := s1.rejectedLog ++ [f.item.itemId] }
      processItemFinally maxConc s2 f.jid f.item f.attempt

/-- A pending retry timer fires: `_processItem(group, item, attempt + 1)`
runs and immediately suspends at its `await`. -/
def fireTimer (s : QueueState) (k : Nat) : QueueState :=
  match s.timers[k]? with
  | none => s
  | some t =>
    { s with timers := s.timers.eraseIdx k,
             inflight := s.inflight ++ [⟨t.jid, t.item, t.attempt⟩] }

/-- `enqueueMessageCheck`: append a fn-less item, then drain. -/
def enqueueMessageCheck (maxConc : Nat) (s : QueueState) (jid : String) :
    QueueState :=
  let s := ensureGroup s jid
  let item : QItem := ⟨s.nextItemId, false, none⟩
  drainQueue maxConc
    { s with
      groups := updateGroup s.groups jid
        (fun g => { g with queue := g.queue ++ [item] }),
      nextItemId := s.nextItemId + 1 }

/-- `enqueueTask`: prepend a task item carrying its own `fn`, then drain. -/
def enqueueTaskItem (maxConc : Nat) (s : QueueState) (jid : String)
    (taskId : List Char) : QueueState :=
  let s := ensureGroup s jid
  let item : QItem := ⟨s.nextItemId, true, some taskId⟩
  drainQueue maxConc
    { s with
      groups := updateGroup s.groups jid
        (fun g => { g with queue := item :: g.queue }),
      nextItemId := s.nextItemId + 1 }

/-- Events of the queue machine: the two enqueue entry points, the
settlement of an in-flight processing call, and a retry-timer firing. -/
inductive QEvent where
  | enqMC (jid : String)
  | enqTask (jid : String) (taskId : List Char)
  | complete (k : Nat) (result : Option Bool)
  | fire (k : Nat)
deriving DecidableEq, Repr

def qStep (maxConc : Nat) (s : QueueState) : QEvent → QueueState
  | .enqMC jid => enqueueMessageCheck maxConc s jid
  | .enqTask jid taskId => enqueueTaskItem maxConc s jid taskId
  | .complete k result => completeFlight maxConc s k result
  | .fire k => fireTimer s k

def qRun (maxConc : Nat) (evs : List QEvent) : QueueState :=
  evs.foldl (qStep maxConc) initialQueueState

/-- Number of groups currently holding a slot. -/
def processingCount (s : QueueState) : Nat :=
  (s.groups.filter (fun g => g.processing)).length

/- ===================== Theorems: group queue ============================ -/

/-- C2: a message-check item (no custom `fn`) that fails its first attempt.
The `finally` clause runs despite the `return` in the `catch`, so while the
5000 ms retry timer is pending the group's `processing` flag is already
`false` and `active_count` is back to 0 — the slot IS released during
backoff, contradicting the claim and the source's own comment. -/
theorem messageCheck_backoff_releases_slot :
    (qRun 5 [.enqMC "g", .complete 0 none]).timers
      = [⟨"g", ⟨0, false, none⟩, 1, 5000⟩] ∧
    (qRun 5 [.enqMC "g", .complete 0 none]).groups
      = [⟨"g", false, none, none, false, []⟩] ∧
    (qRun 5 [.enqMC "g", .complete 0 none]).activeCount = 0 :=
  ⟨rfl, rfl, rfl⟩

/-- C3: two message checks on one group; the first fails once (scheduling a
retry and releasing the slot), the second starts during the backoff, the
retry fires — giving two in-flight items for the same group — and after both
settle each completion decrements `active_count` again, driving it to `-1`
while no group is `processing`. -/
theorem queue_two_inflight_counterexample :
    ((qRun 5 [.enqMC "g", .enqMC "g", .complete 0 none, .fire 0]).inflight.map
        Flight.jid = ["g", "g"]) ∧
    (qRun 5 [.enqMC "g", .enqMC "g", .complete 0 none, .fire 0,
        .complete 1 (some true), .complete 0 (some true)]).activeCount = -1 ∧
    processingCount (qRun 5 [.enqMC "g", .enqMC "g", .complete 0 none, .fire 0,
        .complete 1 (some true), .complete 0 (some true)]) = 0 :=
  ⟨rfl, rfl, rfl⟩

theorem ensureGroup_timers (s : QueueState) (j : String) :
    (ensureGroup s j).timers = s.timers := by
  unfold ensureGroup
  split <;> rfl

theorem ensureGroup_inflight (s : QueueState) (j : String) :
    (ensureGroup s j).inflight = s.inflight := by
  unfold ensureGroup
  split <;> rfl

theorem ensureGroup_rejected (s : QueueState) (j : String) :
    (ensureGroup s j).rejectedLog = s.rejectedLog := by
  unfold ensureGroup
  split <;> rfl

theorem drainQueue_timers (m : Nat) (s : QueueState) :
    (drainQueue m s).timers = s.timers := by
  unfold drainQueue
  split
  · rfl
  · split
    · rfl
    · split <;> rfl

theorem drainQueue_rejected (m : Nat) (s : QueueState) :
    (drainQueue m s).rejectedLog = s.rejectedLog := by
  unfold drainQueue
  split
  · rfl
  · split
    · rfl
    · split <;> rfl

theorem drainQueue_inflight_mem (m : Nat) (s : QueueState) :
    ∀ f ∈ (drainQueue m s).inflight, f ∈ s.inflight ∨ f.attempt = 0 := by
  intro f hf
  unfold drainQueue at hf
  split at hf
  · exact Or.inl hf
  · split at hf
    · exact Or.inl hf
    · split at hf
      · exact Or.inl hf
      · rcases List.mem_append.mp hf with h | h
        · exact Or.inl h
        · right
          rw [List.mem_singleton.mp h]

theorem releaseSlot_timers (m : Nat) (s : QueueState) (j : String) :
    (releaseSlot m s j).timers = s.timers := by
  unfold releaseSlot
  rw [drainQueue_timers]

theorem releaseSlot_rejected (m : Nat) (s : QueueState) (j : String) :
    (releaseSlot m s j).rejectedLog = s.rejectedLog := by
  unfold releaseSlot
  rw [drainQueue_rejected]

theorem releaseSlot_inflight_mem (m : Nat) (s : QueueState) (j : String) :
    ∀ f ∈ (releaseSlot m s j).inflight, f ∈ s.inflight ∨ f.attempt = 0 := by
  intro f hf
  unfold releaseSlot at hf
  rcases drainQueue_inflight_mem m _ f hf with h | h
  · exact Or.inl h
  · exact Or.inr h

theorem processItemFinally_timers (m : Nat) (s : QueueState) (j : String)
    (item : QItem) (att : Nat) :
    (processItemFinally m s j item att).timers = s.timers := by
  unfold processItemFinally
  split
  · rw [releaseSlot_timers]
  · rfl

theorem processItemFinally_rejected (m : Nat) (s : QueueState) (j : String)
    (item : QItem) (att : Nat) :
    (processItemFinally m s j item att).rejectedLog = s.rejectedLog := by
  unfold processItemFinally
  split
  · rw [releaseSlot_rejected]
  · rfl

theorem processItemFinally_inflight_mem (m : Nat) (s : QueueState)
    (j : String) (item : QItem) (att : Nat) :
    ∀ f ∈ (processItemFinally m s j item att).inflight,
      f ∈ s.inflight ∨ f.attempt = 0 := by
  intro f hf
  unfold processItemFinally at hf
  split at hf
  · exact releaseSlot_inflight_mem m _ _ f hf
  · exact Or.inl hf

/-- Timers carry attempts 1..5 and the exponential delay of the failure that
scheduled them. -/
def timersWellFormed (s : QueueState) : Prop :=
  ∀ t ∈ s.timers, 1 ≤ t.attempt ∧ t.attempt ≤ MAX_RETRIES ∧
    t.delay = BASE_RETRY_DELAY * 2 ^ (t.attempt - 1)

/-- No in-flight call is beyond the final attempt. -/
def flightsWellFormed (s : QueueState) : Prop :=
  ∀ f ∈ s.inflight, f.attempt ≤ MAX_RETRIES

theorem qStep_preserves_wf (m : Nat) (s : QueueState) (e : QEvent)
    (ht : timersWellFormed s) (hf : flightsWellFormed s) :
    timersWellFormed (qStep m s e) ∧ flightsWellFormed (qStep m s e) := by
  cases e with
  | enqMC jid =>
    constructor
    · intro t htm
      apply ht
      rw [qStep, enqueueMessageCheck, drainQueue_timers] at htm
      rw [← ensureGroup_timers s jid]
      exact htm
    · intro x hx
      rw [qStep, enqueueMessageCheck] at hx
      rcases drainQueue_inflight_mem m _ x hx with h | h
      · exact hf x (by rw [← ensureGroup_inflight s jid]; exact h)
      · rw [h]; exact Nat.zero_le _
  | enqTask jid taskId =>
    constructor
    · intro t htm
      apply ht
      rw [qStep, enqueueTaskItem, drainQueue_timers] at htm
      rw [← ensureGroup_timers s jid]
      exact htm
    · intro x hx
      rw [qStep, enqueueTaskItem] at hx
      rcases drainQueue_inflight_mem m _ x hx with h | h
      · exact hf x (by rw [← ensureGroup_inflight s jid]; exact h)
      · rw [h]; exact Nat.zero_le _
  | complete k result =>
    rw [qStep, completeFlight]
    cases hk : s.inflight[k]? with
    | none => exact ⟨ht, hf⟩
    | some fl =>
      have hfl : fl.attempt ≤ MAX_RETRIES := hf fl (List.getElem?_mem hk)
      simp only
      cases result with
      | some b =>
        constructor
        · intro t htm
          rw [processItemFinally_timers] at htm
          exact ht t htm
        · intro x hx
          rcases processItemFinally_inflight_mem m _ _ _ _ x hx with h | h
          · exact hf x ((s.inflight.eraseIdx_sublist k).mem h)
          · rw [h]; exact Nat.zero_le _
      | none =>
        constructor
        · intro t htm
          rw [processItemFinally_timers] at htm
          split at htm
          · next hlt =>
            rcases List.mem_append.mp htm with h | h
            · exact ht t h
            · rw [List.mem_singleton.mp h]
              refine ⟨Nat.le_add_left 1 fl.attempt, hlt, ?_⟩
              simp
          · exact ht t htm
        · intro x hx
          rcases processItemFinally_inflight_mem m _ _ _ _ x hx with h | h
          · split at h <;> exact hf x ((s.inflight.eraseIdx_sublist k).mem h)
          · rw [h]; exact Nat.zero_le _
  | fire k =>
    rw [qStep, fireTimer]
    cases hk : s.timers[k]? with
    | none => exact ⟨ht, hf⟩
    | some t =>
      have htk := ht t (List.getElem?_mem hk)
      constructor
      · intro u hu
        exact ht u ((s.timers.eraseIdx_sublist k).mem hu)
      · intro x hx
        rcases List.mem_append.mp hx with h | h
        · exact hf x h
        · rw [List.mem_singleton.mp h]
          exact htk.2.1

/-- C6: in every reachable queue state, every pending retry timer was
scheduled by a failure at some attempt `k < 5` and carries delay
`5000 * 2 ^ k` with next attempt `k + 1`, and no in-flight call is beyond
attempt 5 (so an item is attempted at most 6 times); moreover a failure
settling at attempt `k < 5` schedules exactly the `5000 * 2 ^ k` retry and
does not reject, while a failure settling at attempt 5 schedules no retry
and rejects the item. -/
theorem retry_schedule_spec :
    (∀ (m : Nat) (evs : List QEvent),
      timersWellFormed (qRun m evs) ∧ flightsWellFormed (qRun m evs)) ∧
    (∀ (m : Nat) (s : QueueState) (k : Nat) (fl : Flight),
      s.inflight[k]? = some fl → fl.attempt < MAX_RETRIES →
      (qStep m s (.complete k none)).timers
        = s.timers ++ [⟨fl.jid, fl.item, fl.attempt + 1,
            BASE_RETRY_DELAY * 2 ^ fl.attempt⟩] ∧
      (qStep m s (.complete k none)).rejectedLog = s.rejectedLog) ∧
    (∀ (m : Nat) (s : QueueState) (k : Nat) (fl : Flight),
      s.inflight[k]? = some fl → fl.attempt = MAX_RETRIES →
      (qStep m s (.complete k none)).timers = s.timers ∧
      (qStep m s (.complete k none)).rejectedLog
        = s.rejectedLog ++ [fl.item.itemId]) := by
  refine ⟨?_, ?_, ?_⟩
  · intro m evs
    suffices h : ∀ (l : List QEvent) (s : QueueState),
        timersWellFormed s ∧ flightsWellFormed s →
        timersWellFormed (l.foldl (qStep m) s) ∧
        flightsWellFormed (l.foldl (qStep m) s) by
      exact h evs initialQueueState
        ⟨fun t htm => absurd htm (List.not_mem_nil t),
         fun f hfm => absurd hfm (List.not_mem_nil f)⟩
    intro l
    induction l with
    | nil => intro s h; exact h
    | cons e rest ih =>
      intro s h
      exact ih (qStep m s e) (qStep_preserves_wf m s e h.1 h.2)
  · intro m s k fl hk hlt
    rw [qStep, completeFlight, hk]
    simp only
    rw [if_pos hlt]
    constructor
    · rw [processItemFinally_timers]
    · rw [processItemFinally_rejected]
  · intro m s k fl hk heq
    rw [qStep, completeFlight, hk]
    simp only
    rw [if_neg (by rw [heq]; exact lt_irrefl _)]
    constructor
    · rw [processItemFinally_timers]
    · rw [processItemFinally_rejected]

/-- C6 witness: a task that fails at attempt 0 gets exactly the 5000 ms
retry timer (next attempt 1) and is not rejected. -/
theorem retry_schedule_spec_witness :
    (qStep 5 (qRun 5 [.enqTask "g" (S "T1")]) (.complete 0 none)).timers
      = (qRun 5 [.enqTask "g" (S "T1")]).timers ++
        [⟨"g", ⟨0, true, some (S "T1")⟩, 1, 5000⟩] ∧
    (qStep 5 (qRun 5 [.enqTask "g" (S "T1")]) (.complete 0 none)).rejectedLog
      = (qRun 5 [.enqTask "g" (S "T1")]).rejectedLog := by
  have h := retry_schedule_spec.2.1 5 (qRun 5 [.enqTask "g" (S "T1")]) 0
    ⟨"g", ⟨0, true, some (S "T1")⟩, 0⟩ rfl (by decide)
  exact h

/- ========== Container runner: stdout frame parser (part_001) ============ -/

def OUTPUT_START_MARKER : List Char := S "---JSCLAW_OUTPUT_START---"

def OUTPUT_END_MARKER : List Char := S "---JSCLAW_OUTPUT_END---"

/-- The whitespace class of JavaScript `String.trim` (ASCII part). -/
def isJsWs (c : Char) : Bool := c = ' ' || c = '\n' || c = '\t' || c = '\r'

/-- Models JavaScript `String.trim`. -/
def trimStr (l : List Char) : List Char :=
  ((l.dropWhile isJsWs).reverse.dropWhile isJsWs).reverse

/-- The synthetic output pushed when the inter-marker payload fails
`JSON.parse`. -/
def parseErrorOutput (jsonStr : List Char) : JsVal :=
  .obj [(S "status", .str (S "error")), (S "result", .null),
        (S "error", .str (S "Failed to parse output: " ++ jsonStr.take 200))]

/-- `findSub pat l = some i` implies the occurrence fits inside `l`. -/
theorem findSub_some_bound (pat l : List Char) (i : Nat)
    (h : findSub pat l = some i) : i + pat.length ≤ l.length := by
  induction l generalizing i with
  | nil =>
    rw [findSub] at h
    by_cases hemp : pat.isEmpty = true
    · rw [if_pos hemp] at h
      cases h
      simp [List.isEmpty_iff.mp hemp]
    · rw [if_neg hemp] at h
      cases h
  | cons c rest ih =>
    rw [findSub] at h
    by_cases hpre : pat.isPrefixOf (c :: rest) = true
    · rw [if_pos hpre] at h
      cases h
      simpa using (List.isPrefixOf_iff_prefix.mp hpre).length_le
    · rw [if_neg hpre] at h
      obtain ⟨i', hi', rfl⟩ := Option.map_eq_some'.mp h
      have := ih i' hi'
      simp only [List.length_cons]
      omega

/-- A prefix of `a ++ b` that fits inside `a` is a prefix of `a`. -/
theorem isPrefixOf_append_of_le (pat a b : List Char)
    (h : pat.isPrefixOf (a ++ b) = true) (hlen : pat.length ≤ a.length) :
    pat.isPrefixOf a = true := by
  rw [List.isPrefixOf_iff_prefix] at h ⊢
  obtain ⟨t, ht⟩ := h
  have h1 := congrArg (List.take pat.length) ht
  rw [List.take_left] at h1
  rw [List.take_append_of_le_length hlen] at h1
  exact h1 ▸ List.take_prefix pat.length a

/-- A prefix of `a` is a prefix of `a ++ b`. -/
theorem isPrefixOf_append_extend (pat a b : List Char)
    (h : pat.isPrefixOf a = true) : pat.isPrefixOf (a ++ b) = true := by
  rw [List.isPrefixOf_iff_prefix] at h ⊢
  exact h.trans (a.prefix_append b)

/-- The leftmost occurrence found in `a` is also the leftmost in `a ++ b`. -/
theorem findSub_append_left (pat a b : List Char) (i : Nat)
    (h : findSub pat a = some i) : findSub pat (a ++ b) = some i := by
  induction a generalizing i with
  | nil =>
    rw [findSub] at h
    by_cases hemp : pat.isEmpty = true
    · rw [if_pos hemp] at h
      cases h
      have hpat : pat = [] := List.isEmpty_iff.mp hemp
      subst hpat
      cases b with
      | nil => rfl
      | cons x xs =>
        rw [List.nil_append, findSub]
        simp [List.isPrefixOf]
    · rw [if_neg hemp] at h
      cases h
  | cons c rest ih =>
    rw [findSub] at h
    by_cases hpre : pat.isPrefixOf (c :: rest) = true
    · rw [if_pos hpre] at h
      cases h
      have hext : pat.isPrefixOf (c :: (rest ++ b)) = true :=
        isPrefixOf_append_extend pat (c :: rest) b hpre
      rw [List.cons_append, findSub, if_pos hext]
    · rw [if_neg hpre] at h
      obtain ⟨i', hi', rfl⟩ := Option.map_eq_some'.mp h
      have hb := findSub_some_bound pat rest i' hi'
      have hnp : ¬ pat.isPrefixOf (c :: (rest ++ b)) = true := fun hc =>
        hpre (isPrefixOf_append_of_le pat (c :: rest) b hc
          (by simp only [List.length_cons]; omega))
      rw [List.cons_append, findSub, if_neg hnp, ih i' hi']
      rfl

/-- The per-frame decode: trim the payload, `JSON.parse` it, or synthesize
the parse-error output. -/
def decodePayload (jp : List Char → Option JsVal) (raw : List Char) : JsVal :=
  match jp (trimStr raw) with
  | some v => v
  | none => parseErrorOutput (trimStr raw)

/-- `parseContainerOutput` from the container runner: repeatedly locate the
start marker, then the end marker after it (waiting for more data when either
is missing, preserving the buffer), decode the inter-marker payload, and
discard through the end marker. `jp` models `JSON.parse` (`none` = throw). -/
def parseContainerOutput (jp : List Char → Option JsVal) (buffer : List Char) :
    List JsVal × List Char :=
  match h1 : findSub OUTPUT_START_MARKER buffer with
  | none => ([], buffer)
  | some startIdx =>
    match h2 : findSub OUTPUT_END_MARKER
        (buffer.drop (startIdx + OUTPUT_START_MARKER.length)) with
    | none => ([], buffer)
    | some j =>
      let rest := buffer.drop
        (startIdx + OUTPUT_START_MARKER.length + j + OUTPUT_END_MARKER.length)
      let result := parseContainerOutput jp rest
      (decodePayload jp
          ((buffer.drop (startIdx + OUTPUT_START_MARKER.length)).take j)
        :: result.1,
       result.2)
termination_by buffer.length
decreasing_by
  have hb1 := findSub_some_bound _ _ _ h1
  have hpos : 0 < OUTPUT_START_MARKER.length := by decide
  simp only [List.length_drop]
  omega

theorem parse_no_start (jp : List Char → Option JsVal) (buffer : List Char)
    (h : findSub OUTPUT_START_MARKER buffer = none) :
    parseContainerOutput jp buffer = ([], buffer) := by
  rw [parseContainerOutput.eq_def, h]

theorem parse_no_end (jp : List Char → Option JsVal) (buffer : List Char)
    (s0 : Nat) (h1 : findSub OUTPUT_START_MARKER buffer = some s0)
    (h2 : findSub OUTPUT_END_MARKER
      (buffer.drop (s0 + OUTPUT_START_MARKER.length)) = none) :
    parseContainerOutput jp buffer = ([], buffer) := by
  rw [parseContainerOutput.eq_def]
  split
  · rename_i heq
    rw [h1] at heq
  · rename_i s0' heq
    rw [h1] at heq
    injection heq with hs
    subst hs
    split
    · rfl
    · rename_i j heq2
      rw [h2] at heq2
      exact Option.noConfusion heq2

theorem parse_step (jp : List Char → Option JsVal) (buffer : List Char)
    (s0 j : Nat) (h1 : findSub OUTPUT_START_MARKER buffer = some s0)
    (h2 : findSub OUTPUT_END_MARKER
      (buffer.drop (s0 + OUTPUT_START_MARKER.length)) = some j) :
    parseContainerOutput jp buffer =
      (decodePayload jp
          ((buffer.drop (s0 + OUTPUT_START_MARKER.length)).take j)
        :: (parseContainerOutput jp (buffer.drop
            (s0 + OUTPUT_START_MARKER.length + j
              + OUTPUT_END_MARKER.length))).1,
       (parseContainerOutput jp (buffer.drop
           (s0 + OUTPUT_START_MARKER.length + j
             + OUTPUT_END_MARKER.length))).2) := by
  conv_lhs => rw [parseContainerOutput.eq_def]
  split
  · rename_i heq
    rw [h1] at heq
    exact Option.noConfusion heq
  · rename_i s0' heq
    rw [h1] at heq
    injection heq with hs
    subst hs
    split
    · rename_i heq2
      rw [h2] at heq2
      exact Option.noConfusion heq2
    · rename_i j' heq2
      rw [h2] at heq2
      injection heq2 with hj
      subst hj
      rfl

/-- The parser is a stream homomorphism: parsing `a ++ b` equals parsing
`a`, carrying its remainder into `b`, and appending the output lists. -/
theorem parseContainerOutput_append (jp : List Char → Option JsVal)
    (a b : List Char) :
    parseContainerOutput jp (a ++ b) =
      ((parseContainerOutput jp a).1 ++
        (parseContainerOutput jp ((parseContainerOutput jp a).2 ++ b)).1,
       (parseContainerOutput jp ((parseContainerOutput jp a).2 ++ b)).2) := by
  cases h1 : findSub OUTPUT_START_MARKER a with
  | none =>
    rw [parse_no_start jp a h1]
    simp
  | some s0 =>
    cases h2 : findSub OUTPUT_END_MARKER
        (a.drop (s0 + OUTPUT_START_MARKER.length)) with
    | none =>
      rw [parse_no_end jp a s0 h1 h2]
      simp
    | some j =>
      have hb1 := findSub_some_bound _ _ _ h1
      have hb2 := findSub_some_bound _ _ _ h2
      rw [List.length_drop] at hb2
      have ha1 : findSub OUTPUT_START_MARKER (a ++ b) = some s0 :=
        findSub_append_left _ _ _ _ h1
      have hd : (a ++ b).drop (s0 + OUTPUT_START_MARKER.length)
          = a.drop (s0 + OUTPUT_START_MARKER.length) ++ b :=
        List.drop_append_of_le_length (by omega)
      have ha2 : findSub OUTPUT_END_MARKER
          ((a ++ b).drop (s0 + OUTPUT_START_MARKER.length)) = some j := by
        rw [hd]
        exact findSub_append_left _ _ _ _ h2
      rw [parse_step jp (a ++ b) s0 j ha1 ha2, parse_step jp a s0 j h1 h2]
      have hpay : ((a ++ b).drop (s0 + OUTPUT_START_MARKER.length)).take j
          = (a.drop (s0 + OUTPUT_START_MARKER.length)).take j := by
        rw [hd]
        exact List.take_append_of_le_length (by rw [List.length_drop]; omega)
      have hrest : (a ++ b).drop
            (s0 + OUTPUT_START_MARKER.length + j + OUTPUT_END_MARKER.length)
          = a.drop (s0 + OUTPUT_START_MARKER.length + j
              + OUTPUT_END_MARKER.length) ++ b :=
        List.drop_append_of_le_length (by omega)
      rw [hpay, hrest]
      rw [parseContainerOutput_append jp
        (a.drop (s0 + OUTPUT_START_MARKER.length + j
          + OUTPUT_END_MARKER.length)) b]
      rfl
termination_by a.length
decreasing_by
  have hpos : 0 < OUTPUT_START_MARKER.length := by decide
  simp only [List.length_drop]
  omega

/-- A parse remainder is a fixed point of the parser: feeding it alone
produces no outputs and leaves it unchanged. -/
theorem parse_remaining_fixed (jp : List Char → Option JsVal) (a : List Char) :
    parseContainerOutput jp ((parseContainerOutput jp a).2)
      = ([], (parseContainerOutput jp a).2) := by
  have h := parseContainerOutput_append jp a []
  rw [List.append_nil, List.append_nil] at h
  have h1 := congrArg Prod.fst h
  have h2 := congrArg Prod.snd h
  simp only at h1 h2
  have hx : (parseContainerOutput jp
      ((parseContainerOutput jp a).2)).1 = [] :=
    List.append_right_eq_self.mp h1.symm
  refine Prod.ext ?_ ?_
  · exact hx
  · exact h2.symm

/-- One stdout `data` event of the runner: append the chunk to the carried
buffer, parse, and keep the remainder. -/
def feedStep (jp : List Char → Option JsVal) (st : List JsVal × List Char)
    (c : List Char) : List JsVal × List Char :=
  ((st.1 ++ (parseContainerOutput jp (st.2 ++ c)).1),
   (parseContainerOutput jp (st.2 ++ c)).2)

/-- Incremental feeding of a whole chunk sequence from an empty buffer. -/
def feedChunks (jp : List Char → Option JsVal) (chunks : List (List Char)) :
    List JsVal × List Char :=
  chunks.foldl (feedStep jp) ([], [])

theorem feed_foldl (jp : List Char → Option JsVal) (chunks : List (List Char))
    (acc : List JsVal) (r : List Char)
    (hr : parseContainerOutput jp r = ([], r)) :
    chunks.foldl (feedStep jp) (acc, r)
      = (acc ++ (parseContainerOutput jp (r ++ chunks.flatten)).1,
         (parseContainerOutput jp (r ++ chunks.flatten)).2) := by
  induction chunks generalizing acc r with
  | nil =>
    simp [hr]
  | cons c cs ih =>
    rw [List.foldl_cons]
    rw [show feedStep jp (acc, r) c
      = (acc ++ (parseContainerOutput jp (r ++ c)).1,
         (parseContainerOutput jp (r ++ c)).2) from rfl]
    rw [ih (acc ++ (parseContainerOutput jp (r ++ c)).1)
      ((parseContainerOutput jp (r ++ c)).2) (parse_remaining_fixed jp (r ++ c))]
    have happ := parseContainerOutput_append jp (r ++ c) cs.flatten
    rw [List.flatten_cons, ← List.append_assoc, happ]
    simp [List.append_assoc]

/-- Feeding all chunks incrementally equals parsing their concatenation. -/
theorem feedChunks_eq_parse (jp : List Char → Option JsVal)
    (chunks : List (List Char)) :
    feedChunks jp chunks
      = ((parseContainerOutput jp chunks.flatten).1,
         (parseContainerOutput jp chunks.flatten).2) := by
  have h0 : parseContainerOutput jp [] = ([], []) :=
    parse_no_start jp [] rfl
  have h := feed_foldl jp chunks [] [] h0
  rw [feedChunks, h]
  simp

/-- A prefix sitting at position 0 is the leftmost occurrence. -/
theorem findSub_zero_of_prefixOf (pat l : List Char)
    (h : pat.isPrefixOf l = true) : findSub pat l = some 0 := by
  cases l with
  | nil =>
    rw [findSub]
    have : pat = [] := List.prefix_nil.mp (List.isPrefixOf_iff_prefix.mp h)
    rw [if_pos (by rw [this]; rfl)]
  | cons c rest =>
    rw [findSub, if_pos h]

/-- If an occurrence exists at `m` and none exists before, `findSub`
returns `m`. -/
theorem findSub_of_occurrence (pat l : List Char) (m : Nat)
    (hocc : pat.isPrefixOf (l.drop m) = true)
    (hmin : ∀ k, k < m → pat.isPrefixOf (l.drop k) = false) :
    findSub pat l = some m := by
  induction l generalizing m with
  | nil =>
    have hpe : pat.isEmpty = true := by
      cases pat with
      | nil => rfl
      | cons p ps => rw [List.drop_nil] at hocc; cases hocc
    cases m with
    | zero => rw [findSub, if_pos hpe]
    | succ m' =>
      have h0 := hmin 0 (Nat.succ_pos m')
      rw [List.drop_nil] at hocc
      rw [List.drop_zero] at h0
      cases pat with
      | nil => cases h0
      | cons p ps => cases hocc
  | cons c rest ih =>
    cases m with
    | zero =>
      rw [List.drop_zero] at hocc
      exact findSub_zero_of_prefixOf pat (c :: rest) hocc
    | succ m' =>
      have h0 : pat.isPrefixOf (c :: rest) = false := by
        have := hmin 0 (Nat.succ_pos m')
        rwa [List.drop_zero] at this
      rw [findSub, if_neg (by rw [h0]; exact Bool.false_ne_true)]
      rw [List.drop_succ_cons] at hocc
      rw [ih m' hocc (fun k hk => by
        have := hmin (k + 1) (by omega)
        rwa [List.drop_succ_cons] at this)]
      rfl

/-- A pattern that is a prefix of `l.drop k` occurs inside `l` as an infix. -/
theorem infix_of_prefix_drop (pat l : List Char) (k : Nat)
    (h : pat.isPrefixOf (l.drop k) = true) : pat <:+: l := by
  obtain ⟨t, ht⟩ := List.isPrefixOf_iff_prefix.mp h
  refine ⟨l.take k, t, ?_⟩
  rw [List.append_assoc, ht, List.take_append_drop]

/-- In `'\n' :: s ++ '\n' :: T` there is no occurrence of a newline-free
pattern (not occurring inside `s`) starting before position `|s| + 2`:
any such occurrence would cover one of the two newline characters or sit
wholly inside `s`. -/
theorem no_occurrence_in_wrap (pat s T : List Char) (k : Nat)
    (hne : pat ≠ []) (hnl : ('\n' : Char) ∉ pat) (hinf : ¬ pat <:+: s)
    (hk : k < s.length + 2) :
    pat.isPrefixOf (('\n' :: (s ++ '\n' :: T)).drop k) = false := by
  by_contra hc
  rw [Bool.not_eq_false] at hc
  cases k with
  | zero =>
    rw [List.drop_zero] at hc
    obtain ⟨p, ps, rfl⟩ : ∃ p ps, pat = p :: ps := by
      cases pat with
      | nil => exact absurd rfl hne
      | cons p ps => exact ⟨p, ps, rfl⟩
    have hp := (List.cons_prefix_cons.mp (List.isPrefixOf_iff_prefix.mp hc)).1
    apply hnl
    rw [← hp]
    exact List.mem_cons_self p ps
  | succ k' =>
    rw [List.drop_succ_cons] at hc
    by_cases hfit : k' + pat.length ≤ s.length
    · have hd : (s ++ '\n' :: T).drop k' = s.drop k' ++ '\n' :: T :=
        List.drop_append_of_le_length (by omega)
      rw [hd] at hc
      have hps : pat.isPrefixOf (s.drop k') = true :=
        isPrefixOf_append_of_le pat (s.drop k') ('\n' :: T) hc
          (by rw [List.length_drop]; omega)
      exact hinf (infix_of_prefix_drop pat s k' hps)
    · push_neg at hfit
      have hk' : k' ≤ s.length := by omega
      obtain ⟨u, hu⟩ := List.isPrefixOf_iff_prefix.mp hc
      have hget : pat[s.length - k']? = some '\n' := by
        have hlp : pat ≠ [] → 0 < pat.length := fun h => by
          cases pat with
          | nil => exact absurd rfl h
          | cons a l => simp
        have e1 : (pat ++ u)[s.length - k']? = pat[s.length - k']? :=
          List.getElem?_append_left (by have := hlp hne; omega)
        rw [hu, List.getElem?_drop] at e1
        have harith : k' + (s.length - k') = s.length := by omega
        rw [harith] at e1
        rw [List.getElem?_append_right (le_refl _)] at e1
        simp only [Nat.sub_self, List.getElem?_cons_zero] at e1
        exact e1.symm
      exact hnl (List.getElem?_mem hget)

/-- One framed output as the container emits it: `START\n<payload>\nEND`. -/
def mkFrame (s : List Char) : List Char :=
  OUTPUT_START_MARKER ++ '\n' :: (s ++ '\n' :: OUTPUT_END_MARKER)

/-- A whole framed stdout stream. -/
def frames (ss : List (List Char)) : List Char := (ss.map mkFrame).flatten

/-- Trimming is unaffected by the frame's newlines around the payload. -/
theorem trim_wrap (s : List Char) :
    trimStr ('\n' :: (s ++ ['\n'])) = trimStr s := by
  rw [trimStr, trimStr]
  rw [List.dropWhile_cons_of_pos (by rfl)]
  rw [List.dropWhile_append]
  by_cases hd : (s.dropWhile isJsWs).isEmpty = true
  · rw [if_pos hd, List.isEmpty_iff.mp hd]
    rfl
  · rw [if_neg hd]
    rw [List.reverse_append]
    simp only [List.reverse_cons, List.reverse_nil, List.nil_append,
      List.singleton_append]
    rw [List.dropWhile_cons_of_pos (by rfl)]

theorem decodePayload_wrap (jp : List Char → Option JsVal) (s : List Char) :
    decodePayload jp ('\n' :: (s ++ ['\n'])) = decodePayload jp s := by
  unfold decodePayload
  rw [trim_wrap]

/-- Parsing one leading frame: the payload decodes and the loop continues
after the end marker, provided the payload does not contain the end marker. -/
theorem parse_frame_cons (jp : List Char → Option JsVal) (s T : List Char)
    (hinf : ¬ OUTPUT_END_MARKER <:+: s) :
    parseContainerOutput jp (mkFrame s ++ T)
      = (decodePayload jp s :: (parseContainerOutput jp T).1,
         (parseContainerOutput jp T).2) := by
  have hX : mkFrame s ++ T
      = OUTPUT_START_MARKER
        ++ ('\n' :: (s ++ '\n' :: (OUTPUT_END_MARKER ++ T))) := by
    rw [mkFrame]
    simp [List.append_assoc]
  have hself : OUTPUT_START_MARKER.isPrefixOf OUTPUT_START_MARKER = true :=
    List.isPrefixOf_iff_prefix.mpr (List.prefix_refl _)
  have hselfE : OUTPUT_END_MARKER.isPrefixOf OUTPUT_END_MARKER = true :=
    List.isPrefixOf_iff_prefix.mpr (List.prefix_refl _)
  have h1 : findSub OUTPUT_START_MARKER (mkFrame s ++ T) = some 0 := by
    rw [hX]
    exact findSub_zero_of_prefixOf _ _
      (isPrefixOf_append_extend _ _ _ hself)
  have hdrop : (mkFrame s ++ T).drop (0 + OUTPUT_START_MARKER.length)
      = '\n' :: (s ++ '\n' :: (OUTPUT_END_MARKER ++ T)) := by
    rw [hX, Nat.zero_add, List.drop_left]
  have hsplit : '\n' :: (s ++ '\n' :: (OUTPUT_END_MARKER ++ T))
      = ('\n' :: (s ++ ['\n'])) ++ (OUTPUT_END_MARKER ++ T) := by
    simp
  have h2 : findSub OUTPUT_END_MARKER
      ((mkFrame s ++ T).drop (0 + OUTPUT_START_MARKER.length))
      = some (s.length + 2) := by
    rw [hdrop]
    apply findSub_of_occurrence
    · have hdd : ('\n' :: (s ++ '\n' :: (OUTPUT_END_MARKER ++ T))).drop
          (s.length + 2) = OUTPUT_END_MARKER ++ T := by
        rw [hsplit]
        rw [show s.length + 2 = ('\n' :: (s ++ ['\n'])).length by simp]
        exact List.drop_left _ _
      rw [hdd]
      exact isPrefixOf_append_extend _ _ _ hselfE
    · intro k hk
      exact no_occurrence_in_wrap OUTPUT_END_MARKER s (OUTPUT_END_MARKER ++ T)
        k (by decide) (by decide) hinf hk
  rw [parse_step jp (mkFrame s ++ T) 0 (s.length + 2) h1 h2]
  have hpay : ((mkFrame s ++ T).drop (0 + OUTPUT_START_MARKER.length)).take
      (s.length + 2) = '\n' :: (s ++ ['\n']) := by
    rw [hdrop, hsplit]
    rw [show s.length + 2 = ('\n' :: (s ++ ['\n'])).length by simp]
    exact List.take_left _ _
  have hrest : (mkFrame s ++ T).drop (0 + OUTPUT_START_MARKER.length
      + (s.length + 2) + OUTPUT_END_MARKER.length) = T := by
    rw [hX]
    rw [show 0 + OUTPUT_START_MARKER.length + (s.length + 2)
        + OUTPUT_END_MARKER.length
        = OUTPUT_START_MARKER.length
          + ((s.length + 2) + OUTPUT_END_MARKER.length) by omega]
    rw [← List.drop_drop, List.drop_left]
    rw [hsplit]
    rw [show (s.length + 2) + OUTPUT_END_MARKER.length
        = ('\n' :: (s ++ ['\n'])).length + OUTPUT_END_MARKER.length by simp]
    rw [← List.drop_drop, List.drop_left, List.drop_left]
  rw [hpay, hrest, decodePayload_wrap]

/-- Parsing a complete framed stream decodes every payload, in order, and
leaves an empty buffer. -/
theorem parse_frames (jp : List Char → Option JsVal) (ss : List (List Char))
    (h : ∀ s ∈ ss, ¬ OUTPUT_END_MARKER <:+: s) :
    parseContainerOutput jp (frames ss)
      = (ss.map (decodePayload jp), []) := by
  induction ss with
  | nil => exact parse_no_start jp [] rfl
  | cons s ss' ih =>
    rw [frames, List.map_cons, List.flatten_cons]
    rw [parse_frame_cons jp s _ (h s (List.mem_cons_self s ss'))]
    rw [show (List.map mkFrame ss').flatten = frames ss' from rfl]
    rw [ih (fun x hx => h x (List.mem_cons_of_mem s hx))]
    rw [List.map_cons]

/-- C7: the parser is invariant under chunking. For every sequence of
payloads containing no marker, emitted as `START\n<payload>\nEND` frames,
and every way of splitting the stream into chunks, feeding the chunks
incrementally while carrying the remaining buffer yields exactly the decoded
payload sequence, in order, with nothing left over; and in general parsing
the concatenation of two buffers equals parsing the first, carrying its
remainder into the second, and appending the output lists. -/
theorem parse_chunking_roundtrip :
    (∀ (jp : List Char → Option JsVal) (ss chunks : List (List Char)),
      (∀ s ∈ ss, ¬ OUTPUT_START_MARKER <:+: s ∧ ¬ OUTPUT_END_MARKER <:+: s) →
      chunks.flatten = frames ss →
      feedChunks jp chunks = (ss.map (decodePayload jp), [])) ∧
    (∀ (jp : List Char → Option JsVal) (a b : List Char),
      parseContainerOutput jp (a ++ b) =
        ((parseContainerOutput jp a).1 ++
          (parseContainerOutput jp ((parseContainerOutput jp a).2 ++ b)).1,
         (parseContainerOutput jp ((parseContainerOutput jp a).2 ++ b)).2)) := by
  constructor
  · intro jp ss chunks hss hflat
    rw [feedChunks_eq_parse, hflat,
      parse_frames jp ss (fun s hs => (hss s hs).2)]
  · exact parseContainerOutput_append

/-- C7 witness: one frame with payload `null`, split into four chunks, two
of them mid-marker; the incremental feed yields exactly the decoded payload
and an empty remainder. -/
theorem parse_chunking_roundtrip_witness :
    (∀ s ∈ [S "null"],
      ¬ OUTPUT_START_MARKER <:+: s ∧ ¬ OUTPUT_END_MARKER <:+: s) ∧
    ([S "---JSCLAW_OUT", S "PUT_START---", S "\nnull\n---JSCLAW_OUTPUT_E",
      S "ND---"].flatten = frames [S "null"]) ∧
    feedChunks (fun s => if s = S "null" then some JsVal.null else none)
        [S "---JSCLAW_OUT", S "PUT_START---", S "\nnull\n---JSCLAW_OUTPUT_E",
         S "ND---"]
      = ([JsVal.null], []) := by
  refine ⟨by decide, by decide, ?_⟩
  have h := parse_chunking_roundtrip.1
    (fun s => if s = S "null" then some JsVal.null else none)
    [S "null"]
    [S "---JSCLAW_OUT", S "PUT_START---", S "\nnull\n---JSCLAW_OUTPUT_E",
     S "ND---"]
    (by decide) (by decide)
  rw [h]
  rfl

/- ===== Container runner: streaming state and close handler (part_001) === -/

/-- Optional chaining `v?.k`: `undefined` when the receiver is nullish. -/
def optChain (v : JsVal) (k : List Char) : JsVal :=
  match v with
  | .null => .undefined
  | .undefined => .undefined
  | _ => v.getField k

/-- The executor state of one `runContainerAgent` call: the stdout and
stderr buffers, the `lastOutput` variable (initialised to `null`) and the
`timedOut` flag; `killed` records that a stop/kill was issued. -/
structure RunnerState where
  stdoutBuffer : List Char
  stderrBuffer : List Char
  lastOutput : JsVal
  timedOut : Bool
  killed : Bool

def initialRunnerState : RunnerState := ⟨[], [], .null, false, false⟩

/-- Events the executor handles before the child's `close`. -/
inductive REvent where
  | stdoutData (chunk : List Char)
  | stderrData (chunk : List Char)
  | timeoutFire

/-- The `data` and timeout handlers of `runContainerAgent`: stdout data is
appended and, unless the size cap is exceeded (which kills the container and
skips parsing), parsed; each parsed output becomes `lastOutput` in order.
Stderr keeps a rolling `maxOutputSize / 2` tail. The idle timer sets
`timedOut` and issues the stop/kill. -/
def rStep (jp : List Char → Option JsVal) (maxOutputSize : Nat)
    (s : RunnerState) : REvent → RunnerState
  | .stdoutData chunk =>
    let buf := s.stdoutBuffer ++ chunk
    if buf.length > maxOutputSize then
      { s with stdoutBuffer := buf, killed := true }
    else
      { s with stdoutBuffer := (parseContainerOutput jp buf).2,
               lastOutput := (parseContainerOutput jp buf).1.foldl
                 (fun _ o => o) s.lastOutput }
  | .stderrData chunk =>
    let buf := s.stderrBuffer ++ chunk
    if buf.length > maxOutputSize then
      { s with stderrBuffer := buf.drop (buf.length - maxOutputSize / 2) }
    else
      { s with stderrBuffer := buf }
  | .timeoutFire => { s with timedOut := true, killed := true }

def rRun (jp : List Char → Option JsVal) (maxOutputSize : Nat)
    (evs : List REvent) : RunnerState :=
  evs.foldl (rStep jp maxOutputSize) initialRunnerState

/-- The `close` handler of `runContainerAgent`: the four-way resolution. -/
def closeResolution (cfgTimeout : Nat) (code : Int) (s : RunnerState) :
    JsVal :=
  if s.timedOut then
    .obj [(S "status", .str (S "error")),
          (S "result", jsOr (optChain s.lastOutput (S "result")) .null),
          (S "error", .str (S "Container timed out after "
            ++ (toString cfgTimeout).data ++ S "ms")),
          (S "newSessionId", optChain s.lastOutput (S "newSessionId"))]
  else if s.lastOutput.truthy then s.lastOutput
  else if code = 0 then
    .obj [(S "status", .str (S "success")), (S "result", .null)]
  else
    .obj [(S "status", .str (S "error")), (S "result", .null),
          (S "error", .str (S "Container exited with code "
            ++ (toString code).data ++ S ". stderr: "
            ++ s.stderrBuffer.drop (s.stderrBuffer.length - 500)))]

/-- The stdout chunks of an event sequence, in order. -/
def stdoutOf : List REvent → List (List Char)
  | [] => []
  | .stdoutData c :: r => c :: stdoutOf r
  | _ :: r => stdoutOf r

/-- Whether the idle timeout fired during the event sequence. -/
def hasTimeout (evs : List REvent) : Bool :=
  evs.any (fun e => match e with | .timeoutFire => true | _ => false)

/-- The parser never grows the buffer. -/
theorem parse_remaining_le (jp : List Char → Option JsVal) (b : List Char) :
    (parseContainerOutput jp b).2.length ≤ b.length := by
  cases h1 : findSub OUTPUT_START_MARKER b with
  | none => rw [parse_no_start jp b h1]
  | some s0 =>
    cases h2 : findSub OUTPUT_END_MARKER
        (b.drop (s0 + OUTPUT_START_MARKER.length)) with
    | none => rw [parse_no_end jp b s0 h1 h2]
    | some j =>
      rw [parse_step jp b s0 j h1 h2]
      have hrec := parse_remaining_le jp (b.drop (s0 + OUTPUT_START_MARKER.length
        + j + OUTPUT_END_MARKER.length))
      have hlen : (b.drop (s0 + OUTPUT_START_MARKER.length + j
          + OUTPUT_END_MARKER.length)).length ≤ b.length := by
        rw [List.length_drop]
        omega
      exact le_trans hrec hlen
termination_by b.length
decreasing_by
  have hb1 := findSub_some_bound _ _ _ h1
  have hpos : 0 < OUTPUT_START_MARKER.length := by decide
  simp only [List.length_drop]
  omega

/-- All parsed outputs are truthy when `JSON.parse` only yields truthy
values (as it does for `ContainerOutput` objects): a parse failure
synthesizes an object, which is truthy. -/
theorem parse_outputs_truthy (jp : List Char → Option JsVal)
    (hjp : ∀ s v, jp s = some v → v.truthy = true) (b : List Char) :
    ∀ o ∈ (parseContainerOutput jp b).1, o.truthy = true := by
  cases h1 : findSub OUTPUT_START_MARKER b with
  | none =>
    rw [parse_no_start jp b h1]
    intro o ho
    cases ho
  | some s0 =>
    cases h2 : findSub OUTPUT_END_MARKER
        (b.drop (s0 + OUTPUT_START_MARKER.length)) with
    | none =>
      rw [parse_no_end jp b s0 h1 h2]
      intro o ho
      cases ho
    | some j =>
      rw [parse_step jp b s0 j h1 h2]
      intro o ho
      rcases List.mem_cons.mp ho with rfl | hmem
      · unfold decodePayload
        cases hv : jp (trimStr ((b.drop
            (s0 + OUTPUT_START_MARKER.length)).take j)) with
        | some v => exact hjp _ v hv
        | none => rfl
      · exact parse_outputs_truthy jp hjp
          (b.drop (s0 + OUTPUT_START_MARKER.length + j
            + OUTPUT_END_MARKER.length)) o hmem
termination_by b.length
decreasing_by
  have hb1 := findSub_some_bound _ _ _ h1
  have hpos : 0 < OUTPUT_START_MARKER.length := by decide
  simp only [List.length_drop]
  omega

/-- The runner's `for (const output of outputs) lastOutput = output` loop. -/
theorem foldl_const_last {α : Type} (l : List α) (init : α) :
    l.foldl (fun _ o => o) init = l.getLast?.getD init := by
  induction l generalizing init with
  | nil => rfl
  | cons a t ih =>
    rw [List.foldl_cons, ih]
    cases t with
    | nil => rfl
    | cons b u =>
      rw [List.getLast?_cons_cons]
      obtain ⟨x, hx⟩ := Option.isSome_iff_exists.mp
        (List.getLast?_isSome.mpr (List.cons_ne_nil b u))
      rw [hx]
      rfl

theorem head?_mem {α : Type} (l : List α) (a : α) (h : l.head? = some a) :
    a ∈ l := by
  cases l with
  | nil => cases h
  | cons x t =>
    rw [List.head?_cons] at h
    injection h with h
    rw [← h]
    exact List.mem_cons_self x t

theorem getLast?_mem_of_eq {α : Type} (l : List α) (a : α)
    (h : l.getLast? = some a) : a ∈ l := by
  rw [← List.head?_reverse] at h
  exact List.mem_reverse.mp (head?_mem l.reverse a h)

theorem getLast?_getD_append {α : Type} (a b : List α) (d : α) :
    (a ++ b).getLast?.getD d = b.getLast?.getD (a.getLast?.getD d) := by
  rw [← List.head?_reverse, List.reverse_append, List.head?_append,
    List.head?_reverse, List.head?_reverse]
  cases b.getLast? with
  | none => rfl
  | some x => rfl

/-- The stderr buffer evolution, as a stand-alone fold. -/
def stderrFoldF (maxOutputSize : Nat) (acc : List Char) :
    List REvent → List Char
  | [] => acc
  | .stderrData c :: r =>
    stderrFoldF maxOutputSize
      (if (acc ++ c).length > maxOutputSize then
        (acc ++ c).drop ((acc ++ c).length - maxOutputSize / 2)
      else acc ++ c) r
  | .stdoutData _ :: r => stderrFoldF maxOutputSize acc r
  | .timeoutFire :: r => stderrFoldF maxOutputSize acc r

/-- Machine invariant of the runner's handlers: under the size cap, the
carried stdout buffer is the parse remainder of the stream so far,
`lastOutput` is the last output of the whole stream parsed at once, and
`timedOut` records whether the timer fired. -/
theorem rRun_go (jp : List Char → Option JsVal) (maxOutputSize : Nat)
    (evs : List REvent) (acc : List Char) (s : RunnerState)
    (hbuf : s.stdoutBuffer = (parseContainerOutput jp acc).2)
    (hlast : s.lastOutput
      = ((parseContainerOutput jp acc).1).getLast?.getD .null)
    (hacc : acc.length + (stdoutOf evs).flatten.length ≤ maxOutputSize) :
    (evs.foldl (rStep jp maxOutputSize) s).stdoutBuffer
      = (parseContainerOutput jp (acc ++ (stdoutOf evs).flatten)).2 ∧
    (evs.foldl (rStep jp maxOutputSize) s).lastOutput
      = ((parseContainerOutput jp
          (acc ++ (stdoutOf evs).flatten)).1).getLast?.getD .null ∧
    (evs.foldl (rStep jp maxOutputSize) s).timedOut
      = (s.timedOut || hasTimeout evs) ∧
    (evs.foldl (rStep jp maxOutputSize) s).stderrBuffer
      = stderrFoldF maxOutputSize s.stderrBuffer evs := by
  induction evs generalizing acc s with
  | nil =>
    rw [List.foldl_nil]
    refine ⟨?_, ?_, ?_, rfl⟩
    · rw [show (stdoutOf []).flatten = [] from rfl, List.append_nil]
      exact hbuf
    · rw [show (stdoutOf []).flatten = [] from rfl, List.append_nil]
      exact hlast
    · rw [show hasTimeout [] = false from rfl, Bool.or_false]
  | cons e r ih =>
    cases e with
    | stdoutData c =>
      rw [List.foldl_cons]
      have hres : s.stdoutBuffer.length ≤ acc.length := by
        rw [hbuf]
        exact parse_remaining_le jp acc
      have hflat : (stdoutOf (REvent.stdoutData c :: r)).flatten
          = c ++ (stdoutOf r).flatten := by
        rw [show stdoutOf (REvent.stdoutData c :: r) = c :: stdoutOf r
          from rfl, List.flatten_cons]
      rw [hflat] at hacc
      have hlenc : c.length + (stdoutOf r).flatten.length
          = (c ++ (stdoutOf r).flatten).length := by
        rw [List.length_append]
      have hnooverflow : ¬ ((s.stdoutBuffer ++ c).length > maxOutputSize)
          := by
        rw [List.length_append]
        rw [← hlenc] at hacc
        omega
      have hstep : rStep jp maxOutputSize s (.stdoutData c)
          = { s with
              stdoutBuffer :=
                (parseContainerOutput jp (s.stdoutBuffer ++ c)).2,
              lastOutput :=
                (parseContainerOutput jp (s.stdoutBuffer ++ c)).1.foldl
                  (fun _ o => o) s.lastOutput } := by
        rw [rStep]
        rw [if_neg hnooverflow]
      rw [hstep]
      have happ := parseContainerOutput_append jp acc c
      have hbuf2 : (parseContainerOutput jp (s.stdoutBuffer ++ c)).2
          = (parseContainerOutput jp (acc ++ c)).2 := by
        rw [hbuf, happ]
      have hlast2 : (parseContainerOutput jp (s.stdoutBuffer ++ c)).1.foldl
            (fun _ o => o) s.lastOutput
          = ((parseContainerOutput jp (acc ++ c)).1).getLast?.getD .null := by
        rw [hbuf, foldl_const_last, hlast, ← getLast?_getD_append]
        rw [happ]
      have ih2 := ih (acc ++ c)
        { s with
          stdoutBuffer := (parseContainerOutput jp (s.stdoutBuffer ++ c)).2,
          lastOutput := (parseContainerOutput jp (s.stdoutBuffer ++ c)).1.foldl
            (fun _ o => o) s.lastOutput }
        hbuf2 hlast2 (by rw [List.length_append]; omega)
      refine ⟨?_, ?_, ?_, ?_⟩
      · rw [ih2.1, hflat, List.append_assoc]
      · rw [ih2.2.1, hflat, List.append_assoc]
      · rw [ih2.2.2.1]
        rw [show hasTimeout (REvent.stdoutData c :: r) = hasTimeout r
          from by rw [hasTimeout, hasTimeout, List.any_cons]; rfl]
      · rw [ih2.2.2.2]
        rfl
    | stderrData c =>
      rw [List.foldl_cons]
      have hflat : (stdoutOf (REvent.stderrData c :: r)).flatten
          = (stdoutOf r).flatten := by
        rw [show stdoutOf (REvent.stderrData c :: r) = stdoutOf r from rfl]
      rw [hflat] at hacc
      have hstep : rStep jp maxOutputSize s (.stderrData c)
          = { s with stderrBuffer :=
              (if (s.stderrBuffer ++ c).length > maxOutputSize then
                (s.stderrBuffer ++ c).drop
                  ((s.stderrBuffer ++ c).length - maxOutputSize / 2)
              else s.stderrBuffer ++ c) } := by
        rw [rStep]
        split
        · rfl
        · rfl
      rw [hstep]
      have ih2 := ih acc
        { s with stderrBuffer :=
            (if (s.stderrBuffer ++ c).length > maxOutputSize then
              (s.stderrBuffer ++ c).drop
                ((s.stderrBuffer ++ c).length - maxOutputSize / 2)
            else s.stderrBuffer ++ c) }
        hbuf hlast hacc
      refine ⟨?_, ?_, ?_, ?_⟩
      · rw [ih2.1, hflat]
      · rw [ih2.2.1, hflat]
      · rw [ih2.2.2.1]
        rw [show hasTimeout (REvent.stderrData c :: r) = hasTimeout r
          from by rw [hasTimeout, hasTimeout, List.any_cons]; rfl]
      · rw [ih2.2.2.2]
        rw [show stderrFoldF maxOutputSize s.stderrBuffer
            (REvent.stderrData c :: r)
          = stderrFoldF maxOutputSize
              ((if (s.stderrBuffer ++ c).length > maxOutputSize then
                (s.stderrBuffer ++ c).drop
                  ((s.stderrBuffer ++ c).length - maxOutputSize / 2)
              else s.stderrBuffer ++ c)) r from rfl]
    | timeoutFire =>
      rw [List.foldl_cons]
      have hflat : (stdoutOf (REvent.timeoutFire :: r)).flatten
          = (stdoutOf r).flatten := by
        rw [show stdoutOf (REvent.timeoutFire :: r) = stdoutOf r from rfl]
      rw [hflat] at hacc
      have hstep : rStep jp maxOutputSize s .timeoutFire
          = { s with timedOut := true, killed := true } := rfl
      rw [hstep]
      have ih2 := ih acc { s with timedOut := true, killed := true }
        hbuf hlast hacc
      refine ⟨?_, ?_, ?_, ?_⟩
      · rw [ih2.1, hflat]
      · rw [ih2.2.1, hflat]
      · rw [ih2.2.2.1]
        rw [show hasTimeout (REvent.timeoutFire :: r)
          = (true || hasTimeout r) from by
            rw [hasTimeout, hasTimeout, List.any_cons]]
        simp
      · rw [ih2.2.2.2]
        rfl

/-- C8: on child close with exit code `code`, the resolution follows exactly
this case split over the event history: if the idle timeout fired, the
timeout error (status error, the last framed output's `result` carried over
through `|| null` and its `newSessionId` when present); else the last framed
output parsed from the stdout stream, if any; else, when `code = 0`, success
with null result; else the error naming the exit code and the last 500
characters of the retained stderr buffer. -/
theorem runner_close_spec (jp : List Char → Option JsVal)
    (maxOutputSize cfgTimeout : Nat) (code : Int) (evs : List REvent)
    (hjp : ∀ s v, jp s = some v → v.truthy = true)
    (hsize : (stdoutOf evs).flatten.length ≤ maxOutputSize) :
    closeResolution cfgTimeout code (rRun jp maxOutputSize evs) =
      (if hasTimeout evs then
        .obj [(S "status", .str (S "error")),
              (S "result", jsOr (optChain
                (((parseContainerOutput jp
                    (stdoutOf evs).flatten).1).getLast?.getD .null)
                (S "result")) .null),
              (S "error", .str (S "Container timed out after "
                ++ (toString cfgTimeout).data ++ S "ms")),
              (S "newSessionId", optChain
                (((parseContainerOutput jp
                    (stdoutOf evs).flatten).1).getLast?.getD .null)
                (S "newSessionId"))]
      else
        match ((parseContainerOutput jp
            (stdoutOf evs).flatten).1).getLast? with
        | some o => o
        | none =>
          if code = 0 then
            .obj [(S "status", .str (S "success")), (S "result", .null)]
          else
            .obj [(S "status", .str (S "error")), (S "result", .null),
                  (S "error", .str (S "Container exited with code "
                    ++ (toString code).data ++ S ". stderr: "
                    ++ (stderrFoldF maxOutputSize [] evs).drop
                        ((stderrFoldF maxOutputSize [] evs).length
                          - 500)))]) := by
  have h0 : parseContainerOutput jp ([] : List Char) = ([], []) :=
    parse_no_start jp [] rfl
  have hinv := rRun_go jp maxOutputSize evs [] initialRunnerState
    (by rw [h0]; rfl) (by rw [h0]; rfl) (by simpa using hsize)
  obtain ⟨hb, hl, ht, hsd⟩ := hinv
  rw [List.nil_append] at hl
  have hrun : rRun jp maxOutputSize evs
      = evs.foldl (rStep jp maxOutputSize) initialRunnerState := rfl
  have ht' : (rRun jp maxOutputSize evs).timedOut = hasTimeout evs := by
    rw [hrun, ht]
    rfl
  have hl' : (rRun jp maxOutputSize evs).lastOutput
      = ((parseContainerOutput jp
          (stdoutOf evs).flatten).1).getLast?.getD .null := by
    rw [hrun, hl]
  have hsd' : (rRun jp maxOutputSize evs).stderrBuffer
      = stderrFoldF maxOutputSize [] evs := by
    rw [hrun, hsd]
    rfl
  unfold closeResolution
  rw [ht', hl', hsd']
  by_cases hto : hasTimeout evs = true
  · rw [if_pos hto, if_pos hto]
  · rw [if_neg hto, if_neg hto]
    cases hL : ((parseContainerOutput jp
        (stdoutOf evs).flatten).1).getLast? with
    | some o =>
      have htr : o.truthy = true :=
        parse_outputs_truthy jp hjp (stdoutOf evs).flatten o
          (getLast?_mem_of_eq _ _ hL)
      rw [show (Option.getD (some o) JsVal.null) = o from rfl]
      rw [if_pos htr]
    | none =>
      rw [show (Option.getD (none : Option JsVal) JsVal.null)
        = JsVal.null from rfl]
      rw [if_neg (by rw [show JsVal.null.truthy = false from rfl]; exact
        Bool.false_ne_true)]

/-- C8 witness: one framed output arrives, no timeout; the close resolution
is that (truthy, object) output. -/
theorem runner_close_spec_witness :
    (∀ (s : List Char) (v : JsVal),
      (fun _ : List Char => some (JsVal.obj [])) s = some v →
        v.truthy = true) ∧
    (stdoutOf [REvent.stdoutData (frames [S "x"])]).flatten.length
      ≤ 1000000 ∧
    closeResolution 200 0
        (rRun (fun _ => some (JsVal.obj [])) 1000000
          [REvent.stdoutData (frames [S "x"])])
      = JsVal.obj [] := by
  refine ⟨?_, by decide, ?_⟩
  · intro s v h
    injection h with h
    rw [← h]
    rfl
  · have h := runner_close_spec (fun _ => some (JsVal.obj [])) 1000000 200 0
      [REvent.stdoutData (frames [S "x"])]
      (fun s v hv => by injection hv with hv; rw [← hv]; rfl)
      (by decide)
    have hstream : (stdoutOf [REvent.stdoutData (frames [S "x"])]).flatten
        = frames [S "x"] := rfl
    have hp := parse_frames (fun _ : List Char => some (JsVal.obj []))
      [S "x"] (by decide)
    rw [h, hstream, hp]
    rfl

end Jsclaw
